import Mathlib

set_option maxRecDepth 40000

/-!
Shallow embedding of the autoguillotine image-partitioning program
(src/src/main.rs).  Pixels are 3-channel samples, images carry their
dimensions and a pixel lookup function, and the two profiler functions
plus the recursive partitioner are translated directly from the source.
Floating-point scores are modelled as rationals: every score arising in
the program is a sum of integer channel differences divided by the line
length and the channel count.  A panicking unwrap is modelled as the
none case of an Option result.
-/

/-- A 3-channel pixel sample, each channel an 8-bit intensity value
(modelled as an unconstrained natural number). -/
structure Rgb where
  r : Nat
  g : Nat
  b : Nat
deriving DecidableEq

/-- Channel access: pixel[0], pixel[1], pixel[2] in the source. -/
def Rgb.channel (p : Rgb) : Nat → Nat
  | 0 => p.r
  | 1 => p.g
  | _ => p.b

/-- A 1D line of pixels (type Line in the source). -/
def Line := List Rgb

/-- An RGB image: dimensions plus pixel lookup.  The source's RgbImage is a
width x height buffer of pixels addressed by (x, y); lookups outside the
dimensions never occur in the program's control flow. -/
structure Img where
  width : Nat
  height : Nat
  pix : Nat → Nat → Rgb

/-- Row y of an image: the full horizontal line of pixels at height y. -/
def row (img : Img) (y : Nat) : Line :=
  (List.range img.width).map (fun x => img.pix x y)

/-- Column x of an image: the full vertical line of pixels at offset x. -/
def colLine (img : Img) (x : Nat) : Line :=
  (List.range img.height).map (fun y => img.pix x y)

/-- Sum over every pixel position of a line pair and every channel of the
absolute difference, exactly the double loop of average_difference. -/
def lineAbsSum (old new : Line) : Int :=
  ((List.range (List.length old)).map (fun i =>
    ((List.range 3).map (fun c =>
      |((old.getD i ⟨0, 0, 0⟩).channel c : Int) -
        ((new.getD i ⟨0, 0, 0⟩).channel c : Int)|)).sum)).sum

/-- average_difference from the source: the channel-difference sum divided
by the number of pixels and then by the number of channels.  Written as a
single exact integer fraction so the value is computable by reduction; the
lemma average_difference_eq_div below shows it equals the source-shaped
double division. -/
def average_difference (old new : Line) : ℚ :=
  Rat.divInt (lineAbsSum old new) ((List.length old : Int) * 3)

/-- The definition above equals the source's expression value divided by
the pixel count and then by the channel count. -/
theorem average_difference_eq_div (old new : Line) :
    average_difference old new =
      (lineAbsSum old new : ℚ) / (List.length old : ℚ) / 3 := by
  unfold average_difference
  rw [Rat.divInt_eq_div, div_div]
  push_cast
  ring_nf

/-- The score list built by difference_horizontal: one score per adjacent
row pair.  When the width is zero every line is empty, the old-line buffer
never becomes nonempty in the source's scan, and no score is pushed. -/
def hValues (img : Img) : List ℚ :=
  if img.width = 0 then []
  else (List.range (img.height - 1)).map
    (fun j => average_difference (row img j) (row img (j + 1)))

/-- The score list built by difference_vertical: one score per adjacent
column pair, with the same empty-line guard for height zero. -/
def vValues (img : Img) : List ℚ :=
  if img.height = 0 then []
  else (List.range (img.width - 1)).map
    (fun j => average_difference (colLine img j) (colLine img (j + 1)))

/-- Modelled from the spec: the maximum search over the enumerated score
list is performed in the source by ord_subset_max_by_key from the external
ord-subset crate, whose code is not part of this repository.  Per the
spec's determinism clause, when several scores tie for the maximum the
first (lowest index) one wins; this function returns the index and value
of that first maximum, or none for an empty list. -/
def firstMax : List ℚ → Option (Nat × ℚ)
  | [] => none
  | v :: rest =>
    match firstMax rest with
    | none => some (0, v)
    | some (j, w) => if w > v then some (j + 1, w) else some (0, v)

/-- difference_horizontal: the maximum adjacent-row score and its cut
position (index + 1).  The source unwraps the maximum and panics when the
score list is empty; that failure is the none case here. -/
def difference_horizontal (img : Img) : Option (Nat × ℚ) :=
  (firstMax (hValues img)).map (fun p => (p.1 + 1, p.2))

/-- difference_vertical: the maximum adjacent-column score and its cut
position (index + 1), with the same none-on-empty failure. -/
def difference_vertical (img : Img) : Option (Nat × ℚ) :=
  (firstMax (vValues img)).map (fun p => (p.1 + 1, p.2))

/-- The axis decision on line 102 of the source: horizontal wins exactly
when its score is strictly greater than the vertical score. -/
def chooseHorizontal (hm vm : ℚ) : Bool :=
  decide (vm < hm)

/-- sub_image(x0, y0, w, h).to_image(): an independent copy of the given
rectangle, pixels addressed relative to its own origin. -/
def subImage (img : Img) (x0 y0 w h : Nat) : Img :=
  ⟨w, h, fun i j => img.pix (x0 + i) (y0 + j)⟩

/-! ### Basic facts about the first-maximum scan -/

theorem firstMax_eq_none_iff (l : List ℚ) : firstMax l = none ↔ l = [] := by
  cases l with
  | nil => simp [firstMax]
  | cons x rest =>
    simp only [firstMax]
    cases firstMax rest with
    | none => simp
    | some p =>
      obtain ⟨j, w⟩ := p
      by_cases hw : w > x <;> simp [hw]

theorem firstMax_spec (l : List ℚ) (i : Nat) (v : ℚ)
    (h : firstMax l = some (i, v)) :
    i < l.length ∧ l.getD i 0 = v ∧ (∀ j, j < l.length → l.getD j 0 ≤ v) ∧
      (∀ j, j < i → l.getD j 0 < v) := by
  induction l generalizing i v with
  | nil => simp [firstMax] at h
  | cons x rest ih =>
    rw [firstMax] at h
    cases hr : firstMax rest with
    | none =>
      rw [hr] at h
      have hrest : rest = [] := (firstMax_eq_none_iff rest).mp hr
      subst hrest
      have h2 : some ((0 : Nat), x) = some (i, v) := h
      rw [Option.some.injEq, Prod.mk.injEq] at h2
      obtain ⟨hi, hv⟩ := h2
      subst hi; subst hv
      refine ⟨by simp, by simp, ?_, by omega⟩
      intro j hj
      have hj0 : j = 0 := by simpa using Nat.lt_one_iff.mp (by simpa using hj)
      subst hj0
      simp
    | some p =>
      obtain ⟨j, w⟩ := p
      rw [hr] at h
      obtain ⟨hjl, hjv, hmax, hfirst⟩ := ih j w hr
      have h2 : (if w > x then some (j + 1, w) else some ((0 : Nat), x)) =
          some (i, v) := h
      by_cases hw : w > x
      · rw [if_pos hw, Option.some.injEq, Prod.mk.injEq] at h2
        obtain ⟨hi, hv⟩ := h2
        subst hi; subst hv
        refine ⟨by simpa using Nat.succ_lt_succ hjl, by simpa using hjv, ?_, ?_⟩
        · intro j' hj'
          cases j' with
          | zero => simpa using le_of_lt hw
          | succ k => simpa using hmax k (by simpa using hj')
        · intro j' hj'
          cases j' with
          | zero => simpa using hw
          | succ k => simpa using hfirst k (by omega)
      · rw [if_neg hw, Option.some.injEq, Prod.mk.injEq] at h2
        obtain ⟨hi, hv⟩ := h2
        subst hi; subst hv
        refine ⟨by simp, by simp, ?_, by omega⟩
        intro j' hj'
        cases j' with
        | zero => simp
        | succ k =>
          have hk := hmax k (by simpa using hj')
          simp only [List.getD_cons_succ]
          exact le_trans hk (le_of_not_lt hw)

theorem firstMax_eq_of (l : List ℚ) (i : Nat) (v : ℚ)
    (hi : i < l.length) (hv : l.getD i 0 = v)
    (hmax : ∀ j, j < l.length → l.getD j 0 ≤ v)
    (hfirst : ∀ j, j < i → l.getD j 0 < v) :
    firstMax l = some (i, v) := by
  cases hfm : firstMax l with
  | none =>
    rw [firstMax_eq_none_iff] at hfm
    subst hfm
    simp at hi
  | some p =>
    obtain ⟨i', v'⟩ := p
    obtain ⟨hi', hv', hmax', hfirst'⟩ := firstMax_spec l i' v' hfm
    have h1 : v' ≤ v := by rw [← hv']; exact hmax i' hi'
    have h2 : v ≤ v' := by rw [← hv]; exact hmax' i hi
    have hvv : v' = v := le_antisymm h1 h2
    have hii : i' = i := by
      rcases Nat.lt_trichotomy i' i with hlt | heq | hgt
      · have hc := hfirst i' hlt
        rw [hv', hvv] at hc
        exact absurd hc (lt_irrefl v)
      · exact heq
      · have hc := hfirst' i hgt
        rw [hv, hvv] at hc
        exact absurd hc (lt_irrefl v)
    rw [hvv, hii]

/-! ### Bounds on the profiler cut positions -/

theorem hValues_length (img : Img) :
    (hValues img).length = if img.width = 0 then 0 else img.height - 1 := by
  unfold hValues
  split <;> simp

theorem vValues_length (img : Img) :
    (vValues img).length = if img.height = 0 then 0 else img.width - 1 := by
  unfold vValues
  split <;> simp

theorem difference_horizontal_bounds (img : Img) (i : Nat) (s : ℚ)
    (h : difference_horizontal img = some (i, s)) :
    1 ≤ i ∧ i < img.height ∧ 1 ≤ img.width ∧ 2 ≤ img.height := by
  unfold difference_horizontal at h
  rw [Option.map_eq_some'] at h
  obtain ⟨⟨j, w⟩, hfm, hjw⟩ := h
  rw [Prod.mk.injEq] at hjw
  obtain ⟨hi, _⟩ := hjw
  have hj := (firstMax_spec _ _ _ hfm).1
  rw [hValues_length] at hj
  by_cases hw : img.width = 0
  · rw [if_pos hw] at hj; omega
  · rw [if_neg hw] at hj; omega

theorem difference_vertical_bounds (img : Img) (i : Nat) (s : ℚ)
    (h : difference_vertical img = some (i, s)) :
    1 ≤ i ∧ i < img.width ∧ 1 ≤ img.height ∧ 2 ≤ img.width := by
  unfold difference_vertical at h
  rw [Option.map_eq_some'] at h
  obtain ⟨⟨j, w⟩, hfm, hjw⟩ := h
  rw [Prod.mk.injEq] at hjw
  obtain ⟨hi, _⟩ := hjw
  have hj := (firstMax_spec _ _ _ hfm).1
  rw [vValues_length] at hj
  by_cases hw : img.height = 0
  · rw [if_pos hw] at hj; omega
  · rw [if_neg hw] at hj; omega

/-! ### The recursive partitioner -/

/-- guillotine from the source.  Returns none when a profiler unwrap
panics; the gate returns an empty list; an unaccepted cut returns the
image itself; an accepted cut recurses on the two sub-images and
concatenates their results in order. -/
def guillotine (img : Img) (threshold : ℚ) (min_size : Nat) :
    Option (List Img) :=
  if img.width < min_size ∨ img.height < min_size then some []
  else
    match hh : difference_horizontal img, hv : difference_vertical img with
    | some (h_index, h_max), some (v_index, v_max) =>
      let mx := if chooseHorizontal h_max v_max then h_max else v_max
      if mx > threshold then
        if chooseHorizontal h_max v_max then
          match guillotine (subImage img 0 0 img.width h_index)
                  threshold min_size,
                guillotine (subImage img 0 h_index img.width
                  (img.height - h_index)) threshold min_size with
          | some a, some b => some (a ++ b)
          | _, _ => none
        else
          match guillotine (subImage img 0 0 v_index img.height)
                  threshold min_size,
                guillotine (subImage img v_index 0 (img.width - v_index)
                  img.height) threshold min_size with
          | some a, some b => some (a ++ b)
          | _, _ => none
      else some [img]
    | _, _ => none
termination_by img.width + img.height
decreasing_by
  · have := difference_horizontal_bounds img h_index h_max hh
    simp only [subImage]
    omega
  · have := difference_horizontal_bounds img h_index h_max hh
    simp only [subImage]
    omega
  · have := difference_vertical_bounds img v_index v_max hv
    simp only [subImage]
    omega
  · have := difference_vertical_bounds img v_index v_max hv
    simp only [subImage]
    omega

/-! ### Step lemmas for the partitioner, one per control-flow branch -/

theorem guillotine_gate (img : Img) (t : ℚ) (m : Nat)
    (h : img.width < m ∨ img.height < m) :
    guillotine img t m = some [] := by
  rw [guillotine.eq_def, if_pos h]

theorem guillotine_panic (img : Img) (t : ℚ) (m : Nat)
    (hgate : ¬(img.width < m ∨ img.height < m))
    (h : difference_horizontal img = none ∨ difference_vertical img = none) :
    guillotine img t m = none := by
  rw [guillotine.eq_def, if_neg hgate]
  split
  · rename_i heqh heqv
    rcases h with h | h
    · rw [h] at heqh; exact absurd heqh (by simp)
    · rw [h] at heqv; exact absurd heqv (by simp)
  · rfl

theorem guillotine_nocut (img : Img) (t : ℚ) (m : Nat)
    (hi vi : Nat) (hm vm : ℚ)
    (hgate : ¬(img.width < m ∨ img.height < m))
    (hH : difference_horizontal img = some (hi, hm))
    (hV : difference_vertical img = some (vi, vm))
    (hle : ¬((if chooseHorizontal hm vm then hm else vm) > t)) :
    guillotine img t m = some [img] := by
  rw [guillotine.eq_def, if_neg hgate]
  split
  · rename_i h_index h_max v_index v_max heqh heqv
    rw [hH, Option.some.injEq, Prod.mk.injEq] at heqh
    rw [hV, Option.some.injEq, Prod.mk.injEq] at heqv
    obtain ⟨e1, e2⟩ := heqh
    obtain ⟨e3, e4⟩ := heqv
    subst e1; subst e2; subst e3; subst e4
    rw [if_neg hle]
  · rename_i hne
    exact (hne hi hm vi vm hH hV).elim

theorem guillotine_cut_h (img : Img) (t : ℚ) (m : Nat)
    (hi vi : Nat) (hm vm : ℚ)
    (hgate : ¬(img.width < m ∨ img.height < m))
    (hH : difference_horizontal img = some (hi, hm))
    (hV : difference_vertical img = some (vi, vm))
    (hch : chooseHorizontal hm vm = true)
    (hgt : hm > t) :
    guillotine img t m =
      match guillotine (subImage img 0 0 img.width hi) t m,
            guillotine (subImage img 0 hi img.width (img.height - hi)) t m with
      | some a, some b => some (a ++ b)
      | _, _ => none := by
  rw [guillotine.eq_def, if_neg hgate]
  split
  · rename_i h_index h_max v_index v_max heqh heqv
    rw [hH, Option.some.injEq, Prod.mk.injEq] at heqh
    rw [hV, Option.some.injEq, Prod.mk.injEq] at heqv
    obtain ⟨e1, e2⟩ := heqh
    obtain ⟨e3, e4⟩ := heqv
    subst e1; subst e2; subst e3; subst e4
    rw [if_pos hch, if_pos hgt, if_pos hch]
  · rename_i hne
    exact (hne hi hm vi vm hH hV).elim

theorem guillotine_cut_v (img : Img) (t : ℚ) (m : Nat)
    (hi vi : Nat) (hm vm : ℚ)
    (hgate : ¬(img.width < m ∨ img.height < m))
    (hH : difference_horizontal img = some (hi, hm))
    (hV : difference_vertical img = some (vi, vm))
    (hch : chooseHorizontal hm vm = false)
    (hgt : vm > t) :
    guillotine img t m =
      match guillotine (subImage img 0 0 vi img.height) t m,
            guillotine (subImage img vi 0 (img.width - vi) img.height) t m with
      | some a, some b => some (a ++ b)
      | _, _ => none := by
  rw [guillotine.eq_def, if_neg hgate]
  split
  · rename_i h_index h_max v_index v_max heqh heqv
    rw [hH, Option.some.injEq, Prod.mk.injEq] at heqh
    rw [hV, Option.some.injEq, Prod.mk.injEq] at heqv
    obtain ⟨e1, e2⟩ := heqh
    obtain ⟨e3, e4⟩ := heqv
    subst e1; subst e2; subst e3; subst e4
    have hch2 : ¬(chooseHorizontal hm vm = true) := by rw [hch]; simp
    rw [if_neg hch2, if_pos hgt, if_neg hch2]
  · rename_i hne
    exact (hne hi hm vi vm hH hV).elim

/-! ### Fuel-indexed mirror of the partitioner

The recursion of guillotine is well-founded because every accepted cut
strictly shrinks one dimension.  The fuel-indexed mirror below runs the
same algorithm with an explicit recursion budget and agrees with
guillotine whenever the budget exceeds width + height, which makes the
depth bound of the recursion an explicit theorem. -/

def guillotineFuel : Nat → Img → ℚ → Nat → Option (List Img)
  | 0, _, _, _ => none
  | fuel + 1, img, t, m =>
    if img.width < m ∨ img.height < m then some []
    else
      match difference_horizontal img, difference_vertical img with
      | some (h_index, h_max), some (v_index, v_max) =>
        if (if chooseHorizontal h_max v_max then h_max else v_max) > t then
          if chooseHorizontal h_max v_max then
            match guillotineFuel fuel (subImage img 0 0 img.width h_index) t m,
                  guillotineFuel fuel (subImage img 0 h_index img.width
                    (img.height - h_index)) t m with
            | some a, some b => some (a ++ b)
            | _, _ => none
          else
            match guillotineFuel fuel (subImage img 0 0 v_index img.height) t m,
                  guillotineFuel fuel (subImage img v_index 0
                    (img.width - v_index) img.height) t m with
            | some a, some b => some (a ++ b)
            | _, _ => none
        else some [img]
      | _, _ => none

theorem guillotineFuel_eq (fuel : Nat) :
    ∀ (img : Img) (t : ℚ) (m : Nat), img.width + img.height < fuel →
      guillotineFuel fuel img t m = guillotine img t m := by
  induction fuel with
  | zero => intro img t m h; omega
  | succ fuel ih =>
    intro img t m hlt
    by_cases hgate : img.width < m ∨ img.height < m
    · rw [guillotineFuel, if_pos hgate, guillotine_gate img t m hgate]
    · rw [guillotineFuel, if_neg hgate]
      cases hH : difference_horizontal img with
      | none =>
        rw [guillotine_panic img t m hgate (Or.inl hH)]
      | some p =>
        obtain ⟨h_index, h_max⟩ := p
        cases hV : difference_vertical img with
        | none =>
          rw [guillotine_panic img t m hgate (Or.inr hV)]
        | some q =>
          obtain ⟨v_index, v_max⟩ := q
          dsimp only
          by_cases hcut :
              (if chooseHorizontal h_max v_max then h_max else v_max) > t
          · by_cases hch : chooseHorizontal h_max v_max
            · have hb := difference_horizontal_bounds img h_index h_max hH
              rw [if_pos hcut, if_pos hch,
                ih (subImage img 0 0 img.width h_index) t m
                  (by simp only [subImage]; omega),
                ih (subImage img 0 h_index img.width (img.height - h_index)) t m
                  (by simp only [subImage]; omega),
                guillotine_cut_h img t m h_index v_index h_max v_max hgate hH hV
                  hch (by rw [if_pos hch] at hcut; exact hcut)]
            · have hb := difference_vertical_bounds img v_index v_max hV
              rw [if_pos hcut, if_neg hch,
                ih (subImage img 0 0 v_index img.height) t m
                  (by simp only [subImage]; omega),
                ih (subImage img v_index 0 (img.width - v_index) img.height) t m
                  (by simp only [subImage]; omega),
                guillotine_cut_v img t m h_index v_index h_max v_max hgate hH hV
                  (Bool.not_eq_true _ ▸ hch) (by rw [if_neg hch] at hcut; exact hcut)]
          · rw [if_neg hcut,
              guillotine_nocut img t m h_index v_index h_max v_max hgate hH hV hcut]

/-! ### Scores of constant lines and of vertically uniform images -/

/-- Per-pixel channel-difference sum between two pixels. -/
def pixDist (a b : Rgb) : Int :=
  ((List.range 3).map (fun c => |(a.channel c : Int) - (b.channel c : Int)|)).sum

theorem getD_range_map {α : Type} (n : Nat) (f : Nat → α) (d : α) (i : Nat)
    (h : i < n) : ((List.range n).map f).getD i d = f i := by
  rw [List.getD_eq_getElem?_getD, List.getElem?_map, List.getElem?_range h]
  rfl

theorem lineAbsSum_self (l : Line) : lineAbsSum l l = 0 := by
  unfold lineAbsSum
  apply List.sum_eq_zero
  intro x hx
  rw [List.mem_map] at hx
  obtain ⟨i, _, rfl⟩ := hx
  apply List.sum_eq_zero
  intro y hy
  rw [List.mem_map] at hy
  obtain ⟨c, _, rfl⟩ := hy
  simp

theorem average_difference_self (l : Line) : average_difference l l = 0 := by
  unfold average_difference
  rw [lineAbsSum_self]
  simp

theorem lineAbsSum_map (n : Nat) (f g : Nat → Rgb) :
    lineAbsSum ((List.range n).map f) ((List.range n).map g) =
      ((List.range n).map (fun i => pixDist (f i) (g i))).sum := by
  unfold lineAbsSum pixDist
  rw [List.length_map, List.length_range]
  apply congrArg
  apply List.map_congr_left
  intro i hi
  rw [List.mem_range] at hi
  rw [getD_range_map n f ⟨0, 0, 0⟩ i hi, getD_range_map n g ⟨0, 0, 0⟩ i hi]

theorem average_difference_const (n : Nat) (hn : 0 < n) (a b : Rgb) :
    average_difference ((List.range n).map fun _ => a)
      ((List.range n).map fun _ => b) = Rat.divInt (pixDist a b) 3 := by
  unfold average_difference
  rw [lineAbsSum_map]
  have hsum : ((List.range n).map (fun _ => pixDist a b)).sum =
      (n : Int) * pixDist a b := by
    rw [List.map_const', List.sum_replicate, List.length_range, nsmul_eq_mul]
  rw [hsum, List.length_map, List.length_range]
  rw [Rat.divInt_eq_div, Rat.divInt_eq_div]
  push_cast
  rw [mul_div_mul_left _ _ (by exact_mod_cast Nat.pos_iff_ne_zero.mp hn :
    (n : ℚ) ≠ 0)]

/-- A vertically uniform image: the pixel function ignores the y
coordinate, so all rows are equal. -/
theorem row_eq_of_yconst (img : Img)
    (hy : ∀ x y, img.pix x y = img.pix x 0) (j : Nat) :
    row img j = row img 0 := by
  unfold row
  exact List.map_congr_left (fun x _ => hy x j)

theorem colLine_eq_of_yconst (img : Img)
    (hy : ∀ x y, img.pix x y = img.pix x 0) (x : Nat) :
    colLine img x = (List.range img.height).map (fun _ => img.pix x 0) := by
  unfold colLine
  exact List.map_congr_left (fun y _ => hy x y)

theorem hValues_yconst (img : Img)
    (hy : ∀ x y, img.pix x y = img.pix x 0) :
    hValues img = if img.width = 0 then []
      else (List.range (img.height - 1)).map (fun _ => (0 : ℚ)) := by
  unfold hValues
  split
  · rfl
  · apply List.map_congr_left
    intro j _
    rw [row_eq_of_yconst img hy j, row_eq_of_yconst img hy (j + 1),
      average_difference_self]

theorem vValues_yconst (img : Img)
    (hy : ∀ x y, img.pix x y = img.pix x 0) (hh : 0 < img.height) :
    vValues img = (List.range (img.width - 1)).map
      (fun j => Rat.divInt (pixDist (img.pix j 0) (img.pix (j + 1) 0)) 3) := by
  unfold vValues
  rw [if_neg (by omega)]
  apply List.map_congr_left
  intro j _
  rw [colLine_eq_of_yconst img hy j, colLine_eq_of_yconst img hy (j + 1),
    average_difference_const img.height hh]

theorem difference_horizontal_yconst (img : Img)
    (hy : ∀ x y, img.pix x y = img.pix x 0)
    (hw : 1 ≤ img.width) (hh : 2 ≤ img.height) :
    difference_horizontal img = some (1, 0) := by
  unfold difference_horizontal
  rw [hValues_yconst img hy, if_neg (by omega)]
  rw [firstMax_eq_of ((List.range (img.height - 1)).map (fun _ => (0 : ℚ)))
    0 0 (by simp; omega)
    (getD_range_map _ _ _ _ (by omega))
    (fun j hj => by
      rw [List.length_map, List.length_range] at hj
      rw [getD_range_map _ _ _ _ hj])
    (fun j hj => by omega)]
  rfl

/-! ### Uniform images are returned whole -/

theorem firstMax_isSome_of_ne_nil (l : List ℚ) (h : l ≠ []) :
    ∃ p, firstMax l = some p := by
  cases hfm : firstMax l with
  | none => exact absurd ((firstMax_eq_none_iff l).mp hfm) h
  | some p => exact ⟨p, rfl⟩

theorem guillotine_all_zero (img : Img) (t : ℚ) (m : Nat)
    (hw : 2 ≤ img.width) (hh : 2 ≤ img.height)
    (hmw : m ≤ img.width) (hmh : m ≤ img.height) (ht : 0 ≤ t)
    (h0 : ∀ s ∈ hValues img, s = 0) (v0 : ∀ s ∈ vValues img, s = 0) :
    guillotine img t m = some [img] := by
  have hnh : hValues img ≠ [] := by
    intro hcon
    have hl := hValues_length img
    rw [hcon] at hl
    simp only [List.length_nil] at hl
    rw [if_neg (by omega)] at hl
    omega
  have hnv : vValues img ≠ [] := by
    intro hcon
    have hl := vValues_length img
    rw [hcon] at hl
    simp only [List.length_nil] at hl
    rw [if_neg (by omega)] at hl
    omega
  obtain ⟨⟨i, s⟩, hp⟩ := firstMax_isSome_of_ne_nil _ hnh
  obtain ⟨⟨j, u⟩, hq⟩ := firstMax_isSome_of_ne_nil _ hnv
  have hspec := firstMax_spec _ _ _ hp
  have hqspec := firstMax_spec _ _ _ hq
  have hs : s = 0 := by
    have hmem : (hValues img).getD i 0 ∈ hValues img := by
      rw [List.getD_eq_getElem _ _ hspec.1]
      exact List.getElem_mem _
    rw [hspec.2.1] at hmem
    exact h0 s hmem
  have hu : u = 0 := by
    have hmem : (vValues img).getD j 0 ∈ vValues img := by
      rw [List.getD_eq_getElem _ _ hqspec.1]
      exact List.getElem_mem _
    rw [hqspec.2.1] at hmem
    exact v0 u hmem
  subst hs; subst hu
  have hH : difference_horizontal img = some (i + 1, 0) := by
    unfold difference_horizontal; rw [hp]; rfl
  have hV : difference_vertical img = some (j + 1, 0) := by
    unfold difference_vertical; rw [hq]; rfl
  exact guillotine_nocut img t m (i + 1) (j + 1) 0 0 (by omega) hH hV
    (by
      rw [show chooseHorizontal (0 : ℚ) 0 = false from by decide]
      simpa using ht)

/-- Every pair of adjacent lines of a color-uniform image scores zero, so
the cut is rejected and the image is returned whole. -/
theorem guillotine_const_image (img : Img) (t : ℚ) (m : Nat)
    (hw : 2 ≤ img.width) (hh : 2 ≤ img.height)
    (hmw : m ≤ img.width) (hmh : m ≤ img.height) (ht : 0 ≤ t)
    (hc : ∀ x y, x < img.width → y < img.height → img.pix x y = img.pix 0 0) :
    guillotine img t m = some [img] := by
  have hrow : ∀ j, j < img.height →
      row img j = (List.range img.width).map (fun _ => img.pix 0 0) := by
    intro j hj
    apply List.map_congr_left
    intro x hx
    rw [List.mem_range] at hx
    exact hc x j hx hj
  have hcol : ∀ x, x < img.width →
      colLine img x = (List.range img.height).map (fun _ => img.pix 0 0) := by
    intro x hx
    apply List.map_congr_left
    intro y hy
    rw [List.mem_range] at hy
    exact hc x y hx hy
  apply guillotine_all_zero img t m hw hh hmw hmh ht
  · intro s hs
    unfold hValues at hs
    rw [if_neg (by omega)] at hs
    rw [List.mem_map] at hs
    obtain ⟨j, hj, rfl⟩ := hs
    rw [List.mem_range] at hj
    rw [hrow j (by omega), hrow (j + 1) (by omega), average_difference_self]
  · intro s hs
    unfold vValues at hs
    rw [if_neg (by omega)] at hs
    rw [List.mem_map] at hs
    obtain ⟨j, hj, rfl⟩ := hs
    rw [List.mem_range] at hj
    rw [hcol j (by omega), hcol (j + 1) (by omega), average_difference_self]

/-! ### Concrete images -/

def white : Rgb := ⟨255, 255, 255⟩

def blackPx : Rgb := ⟨0, 0, 0⟩

/-- The spec's example scenario: a 200 x 100 image, solid white except for
a single fully-contrasting vertical line at column 100. -/
def lineImage : Img :=
  ⟨200, 100, fun x _ => if x = 100 then blackPx else white⟩

theorem diffH_lineImage : difference_horizontal lineImage = some (1, 0) :=
  difference_horizontal_yconst lineImage (fun _ _ => rfl)
    (by decide) (by decide)

theorem diffV_lineImage : difference_vertical lineImage = some (100, 255) := by
  unfold difference_vertical
  rw [vValues_yconst lineImage (fun _ _ => rfl) (by decide)]
  decide

theorem guillotine_left_half :
    guillotine (subImage lineImage 0 0 100 lineImage.height) 30 100 =
      some [subImage lineImage 0 0 100 lineImage.height] := by
  apply guillotine_const_image _ 30 100 (by decide) (by decide) (by decide)
    (by decide) (by norm_num)
  intro x y hx hy
  show lineImage.pix (0 + x) (0 + y) = lineImage.pix (0 + 0) (0 + 0)
  unfold lineImage
  simp only
  rw [if_neg (by simp only [subImage] at hx; omega), if_neg (by omega)]

theorem diffH_right_half :
    difference_horizontal
      (subImage lineImage 100 0 (lineImage.width - 100) lineImage.height) =
      some (1, 0) :=
  difference_horizontal_yconst _ (fun _ _ => rfl) (by decide) (by decide)

theorem diffV_right_half :
    difference_vertical
      (subImage lineImage 100 0 (lineImage.width - 100) lineImage.height) =
      some (1, 255) := by
  unfold difference_vertical
  rw [vValues_yconst _ (fun _ _ => rfl) (by decide)]
  decide

theorem guillotine_right_half :
    guillotine (subImage lineImage 100 0 (lineImage.width - 100)
      lineImage.height) 30 100 = some [] := by
  rw [guillotine_cut_v _ 30 100 1 1 0 255 (by decide)
    diffH_right_half diffV_right_half (by decide) (by norm_num)]
  rw [guillotine_gate _ 30 100 (Or.inl (by decide)),
    guillotine_gate _ 30 100 (Or.inl (by decide))]
  rfl

/-- Full evaluation of the spec's example scenario: the program returns a
single 100 x 100 sub-image, the left half; the right half is split again
at the contrasting line into two slivers below the minimum size, which the
gate discards. -/
theorem guillotine_lineImage :
    guillotine lineImage 30 100 =
      some [subImage lineImage 0 0 100 lineImage.height] := by
  rw [guillotine_cut_v lineImage 30 100 1 100 0 255 (by decide)
    diffH_lineImage diffV_lineImage (by decide) (by norm_num)]
  rw [guillotine_left_half, guillotine_right_half]
  rfl

/-! ### The partitioner with explicit offsets

guillotineOff runs exactly the same algorithm as guillotine but carries
the absolute offset of the current region inside the original image, and
tags every emitted sub-image with the offset of its region.  The
projection lemma below shows that dropping the offsets gives back
guillotine, so the offsets are the cut positions accumulated along the
recursion. -/

def guillotineOff (img : Img) (ox oy : Nat) (t : ℚ) (m : Nat) :
    Option (List ((Nat × Nat) × Img)) :=
  if img.width < m ∨ img.height < m then some []
  else
    match hh : difference_horizontal img, hv : difference_vertical img with
    | some (h_index, h_max), some (v_index, v_max) =>
      if (if chooseHorizontal h_max v_max then h_max else v_max) > t then
        if chooseHorizontal h_max v_max then
          match guillotineOff (subImage img 0 0 img.width h_index) ox oy t m,
                guillotineOff (subImage img 0 h_index img.width
                  (img.height - h_index)) ox (oy + h_index) t m with
          | some a, some b => some (a ++ b)
          | _, _ => none
        else
          match guillotineOff (subImage img 0 0 v_index img.height) ox oy t m,
                guillotineOff (subImage img v_index 0 (img.width - v_index)
                  img.height) (ox + v_index) oy t m with
          | some a, some b => some (a ++ b)
          | _, _ => none
      else some [((ox, oy), img)]
    | _, _ => none
termination_by img.width + img.height
decreasing_by
  · have := difference_horizontal_bounds img h_index h_max hh
    simp only [subImage]
    omega
  · have := difference_horizontal_bounds img h_index h_max hh
    simp only [subImage]
    omega
  · have := difference_vertical_bounds img v_index v_max hv
    simp only [subImage]
    omega
  · have := difference_vertical_bounds img v_index v_max hv
    simp only [subImage]
    omega

theorem guillotineOff_gate (img : Img) (ox oy : Nat) (t : ℚ) (m : Nat)
    (h : img.width < m ∨ img.height < m) :
    guillotineOff img ox oy t m = some [] := by
  rw [guillotineOff.eq_def, if_pos h]

theorem guillotineOff_panic (img : Img) (ox oy : Nat) (t : ℚ) (m : Nat)
    (hgate : ¬(img.width < m ∨ img.height < m))
    (h : difference_horizontal img = none ∨ difference_vertical img = none) :
    guillotineOff img ox oy t m = none := by
  rw [guillotineOff.eq_def, if_neg hgate]
  split
  · rename_i heqh heqv
    rcases h with h | h
    · rw [h] at heqh; exact absurd heqh (by simp)
    · rw [h] at heqv; exact absurd heqv (by simp)
  · rfl

theorem guillotineOff_nocut (img : Img) (ox oy : Nat) (t : ℚ) (m : Nat)
    (hi vi : Nat) (hm vm : ℚ)
    (hgate : ¬(img.width < m ∨ img.height < m))
    (hH : difference_horizontal img = some (hi, hm))
    (hV : difference_vertical img = some (vi, vm))
    (hle : ¬((if chooseHorizontal hm vm then hm else vm) > t)) :
    guillotineOff img ox oy t m = some [((ox, oy), img)] := by
  rw [guillotineOff.eq_def, if_neg hgate]
  split
  · rename_i h_index h_max v_index v_max heqh heqv
    rw [hH, Option.some.injEq, Prod.mk.injEq] at heqh
    rw [hV, Option.some.injEq, Prod.mk.injEq] at heqv
    obtain ⟨e1, e2⟩ := heqh
    obtain ⟨e3, e4⟩ := heqv
    subst e1; subst e2; subst e3; subst e4
    rw [if_neg hle]
  · rename_i hne
    exact (hne hi hm vi vm hH hV).elim

theorem guillotineOff_cut_h (img : Img) (ox oy : Nat) (t : ℚ) (m : Nat)
    (hi vi : Nat) (hm vm : ℚ)
    (hgate : ¬(img.width < m ∨ img.height < m))
    (hH : difference_horizontal img = some (hi, hm))
    (hV : difference_vertical img = some (vi, vm))
    (hch : chooseHorizontal hm vm = true)
    (hgt : hm > t) :
    guillotineOff img ox oy t m =
      match guillotineOff (subImage img 0 0 img.width hi) ox oy t m,
            guillotineOff (subImage img 0 hi img.width (img.height - hi))
              ox (oy + hi) t m with
      | some a, some b => some (a ++ b)
      | _, _ => none := by
  rw [guillotineOff.eq_def, if_neg hgate]
  split
  · rename_i h_index h_max v_index v_max heqh heqv
    rw [hH, Option.some.injEq, Prod.mk.injEq] at heqh
    rw [hV, Option.some.injEq, Prod.mk.injEq] at heqv
    obtain ⟨e1, e2⟩ := heqh
    obtain ⟨e3, e4⟩ := heqv
    subst e1; subst e2; subst e3; subst e4
    rw [if_pos hch, if_pos hgt, if_pos hch]
  · rename_i hne
    exact (hne hi hm vi vm hH hV).elim

theorem guillotineOff_cut_v (img : Img) (ox oy : Nat) (t : ℚ) (m : Nat)
    (hi vi : Nat) (hm vm : ℚ)
    (hgate : ¬(img.width < m ∨ img.height < m))
    (hH : difference_horizontal img = some (hi, hm))
    (hV : difference_vertical img = some (vi, vm))
    (hch : chooseHorizontal hm vm = false)
    (hgt : vm > t) :
    guillotineOff img ox oy t m =
      match guillotineOff (subImage img 0 0 vi img.height) ox oy t m,
            guillotineOff (subImage img vi 0 (img.width - vi) img.height)
              (ox + vi) oy t m with
      | some a, some b => some (a ++ b)
      | _, _ => none := by
  rw [guillotineOff.eq_def, if_neg hgate]
  split
  · rename_i h_index h_max v_index v_max heqh heqv
    rw [hH, Option.some.injEq, Prod.mk.injEq] at heqh
    rw [hV, Option.some.injEq, Prod.mk.injEq] at heqv
    obtain ⟨e1, e2⟩ := heqh
    obtain ⟨e3, e4⟩ := heqv
    subst e1; subst e2; subst e3; subst e4
    have hch2 : ¬(chooseHorizontal hm vm = true) := by rw [hch]; simp
    rw [if_neg hch2, if_pos hgt, if_neg hch2]
  · rename_i hne
    exact (hne hi hm vi vm hH hV).elim

/-- Dropping the offsets from guillotineOff gives exactly the output of
guillotine: the two runs share every decision. -/
theorem guillotineOff_proj (n : Nat) :
    ∀ (img : Img), img.width + img.height ≤ n → ∀ (ox oy : Nat) (t : ℚ)
      (m : Nat),
      Option.map (List.map Prod.snd) (guillotineOff img ox oy t m) =
        guillotine img t m := by
  induction n using Nat.strong_induction_on with
  | _ n ih =>
    intro img hn ox oy t m
    by_cases hgate : img.width < m ∨ img.height < m
    · rw [guillotineOff_gate img ox oy t m hgate, guillotine_gate img t m hgate]
      rfl
    · cases hH : difference_horizontal img with
      | none =>
        rw [guillotineOff_panic img ox oy t m hgate (Or.inl hH),
          guillotine_panic img t m hgate (Or.inl hH)]
        rfl
      | some p =>
        obtain ⟨h_index, h_max⟩ := p
        cases hV : difference_vertical img with
        | none =>
          rw [guillotineOff_panic img ox oy t m hgate (Or.inr hV),
            guillotine_panic img t m hgate (Or.inr hV)]
          rfl
        | some q =>
          obtain ⟨v_index, v_max⟩ := q
          by_cases hcut :
              (if chooseHorizontal h_max v_max then h_max else v_max) > t
          · by_cases hch : chooseHorizontal h_max v_max
            · have hb := difference_horizontal_bounds img h_index h_max hH
              rw [guillotineOff_cut_h img ox oy t m h_index v_index h_max v_max
                  hgate hH hV hch (by rw [if_pos hch] at hcut; exact hcut),
                guillotine_cut_h img t m h_index v_index h_max v_max
                  hgate hH hV hch (by rw [if_pos hch] at hcut; exact hcut)]
              have eA := ih (n - 1) (by omega)
                (subImage img 0 0 img.width h_index)
                (by simp only [subImage]; omega) ox oy t m
              have eB := ih (n - 1) (by omega)
                (subImage img 0 h_index img.width (img.height - h_index))
                (by simp only [subImage]; omega) ox (oy + h_index) t m
              cases hA : guillotineOff (subImage img 0 0 img.width h_index)
                  ox oy t m with
              | none =>
                rw [hA] at eA
                rw [← eA]
                rfl
              | some a =>
                rw [hA] at eA
                cases hB : guillotineOff (subImage img 0 h_index img.width
                    (img.height - h_index)) ox (oy + h_index) t m with
                | none =>
                  rw [hB] at eB
                  rw [← eA, ← eB]
                  rfl
                | some b =>
                  rw [hB] at eB
                  rw [← eA, ← eB]
                  simp [List.map_append]
            · have hb := difference_vertical_bounds img v_index v_max hV
              have hch0 : chooseHorizontal h_max v_max = false :=
                Bool.not_eq_true _ ▸ hch
              rw [guillotineOff_cut_v img ox oy t m h_index v_index h_max v_max
                  hgate hH hV hch0 (by rw [if_neg hch] at hcut; exact hcut),
                guillotine_cut_v img t m h_index v_index h_max v_max
                  hgate hH hV hch0 (by rw [if_neg hch] at hcut; exact hcut)]
              have eA := ih (n - 1) (by omega)
                (subImage img 0 0 v_index img.height)
                (by simp only [subImage]; omega) ox oy t m
              have eB := ih (n - 1) (by omega)
                (subImage img v_index 0 (img.width - v_index) img.height)
                (by simp only [subImage]; omega) (ox + v_index) oy t m
              cases hA : guillotineOff (subImage img 0 0 v_index img.height)
                  ox oy t m with
              | none =>
                rw [hA] at eA
                rw [← eA]
                rfl
              | some a =>
                rw [hA] at eA
                cases hB : guillotineOff (subImage img v_index 0
                    (img.width - v_index) img.height) (ox + v_index) oy t m with
                | none =>
                  rw [hB] at eB
                  rw [← eA, ← eB]
                  rfl
                | some b =>
                  rw [hB] at eB
                  rw [← eA, ← eB]
                  simp [List.map_append]
          · rw [guillotineOff_nocut img ox oy t m h_index v_index h_max v_max
                hgate hH hV hcut,
              guillotine_nocut img t m h_index v_index h_max v_max
                hgate hH hV hcut]
            rfl

/-! ### Geometry of the emitted regions -/

/-- The rectangles of two tagged sub-images do not overlap: one lies
entirely to the left of, to the right of, above, or below the other. -/
def rectDisjoint (p q : (Nat × Nat) × Img) : Prop :=
  p.1.1 + p.2.width ≤ q.1.1 ∨ q.1.1 + q.2.width ≤ p.1.1 ∨
    p.1.2 + p.2.height ≤ q.1.2 ∨ q.1.2 + q.2.height ≤ p.1.2

/-- A tagged sub-image lies inside the region of width w and height h at
offset (ox, oy). -/
def inRegion (ox oy w h : Nat) (p : (Nat × Nat) × Img) : Prop :=
  ox ≤ p.1.1 ∧ p.1.1 + p.2.width ≤ ox + w ∧
    oy ≤ p.1.2 ∧ p.1.2 + p.2.height ≤ oy + h

/-- Structural soundness of the recursive partition: every emitted
sub-image lies inside the region it was carved from, its pixels are the
original pixels at its offset, and the emitted rectangles are pairwise
disjoint. -/
theorem guillotineOff_sound (n : Nat) :
    ∀ (img : Img), img.width + img.height ≤ n →
    ∀ (ox oy : Nat) (t : ℚ) (m : Nat) (l : List ((Nat × Nat) × Img)),
      guillotineOff img ox oy t m = some l →
      (∀ p ∈ l, inRegion ox oy img.width img.height p ∧
        (∀ dx dy, p.2.pix dx dy =
          img.pix (p.1.1 - ox + dx) (p.1.2 - oy + dy))) ∧
      l.Pairwise rectDisjoint := by
  induction n using Nat.strong_induction_on with
  | _ n ih =>
    intro img hn ox oy t m l hl
    by_cases hgate : img.width < m ∨ img.height < m
    · rw [guillotineOff_gate img ox oy t m hgate, Option.some.injEq] at hl
      subst hl
      exact ⟨by simp, List.Pairwise.nil⟩
    · cases hH : difference_horizontal img with
      | none =>
        rw [guillotineOff_panic img ox oy t m hgate (Or.inl hH)] at hl
        exact absurd hl (by simp)
      | some p =>
        obtain ⟨h_index, h_max⟩ := p
        cases hV : difference_vertical img with
        | none =>
          rw [guillotineOff_panic img ox oy t m hgate (Or.inr hV)] at hl
          exact absurd hl (by simp)
        | some q =>
          obtain ⟨v_index, v_max⟩ := q
          by_cases hcut :
              (if chooseHorizontal h_max v_max then h_max else v_max) > t
          · by_cases hch : chooseHorizontal h_max v_max
            · -- horizontal cut at h_index
              have hb := difference_horizontal_bounds img h_index h_max hH
              rw [guillotineOff_cut_h img ox oy t m h_index v_index h_max v_max
                hgate hH hV hch (by rw [if_pos hch] at hcut; exact hcut)] at hl
              cases hA : guillotineOff (subImage img 0 0 img.width h_index)
                  ox oy t m with
              | none => rw [hA] at hl; exact absurd hl (by simp)
              | some a =>
                cases hB : guillotineOff (subImage img 0 h_index img.width
                    (img.height - h_index)) ox (oy + h_index) t m with
                | none => rw [hA, hB] at hl; exact absurd hl (by simp)
                | some b =>
                  rw [hA, hB] at hl
                  have hl2 : some (a ++ b) = some l := hl
                  rw [Option.some.injEq] at hl2
                  subst hl2
                  obtain ⟨ihA1, ihA2⟩ := ih (n - 1) (by omega) _
                    (by simp only [subImage]; omega) ox oy t m a hA
                  obtain ⟨ihB1, ihB2⟩ := ih (n - 1) (by omega) _
                    (by simp only [subImage]; omega) ox (oy + h_index) t m b hB
                  constructor
                  · intro p hp
                    rw [List.mem_append] at hp
                    rcases hp with hp | hp
                    · obtain ⟨hirA, hpixA⟩ := ihA1 p hp
                      unfold inRegion at hirA ⊢
                      simp only [subImage] at hirA
                      refine ⟨⟨by omega, by omega, by omega, by omega⟩, ?_⟩
                      intro dx dy
                      rw [hpixA dx dy]
                      simp only [subImage, Nat.zero_add]
                    · obtain ⟨hirB, hpixB⟩ := ihB1 p hp
                      unfold inRegion at hirB ⊢
                      simp only [subImage] at hirB
                      refine ⟨⟨by omega, by omega, by omega, by omega⟩, ?_⟩
                      intro dx dy
                      rw [hpixB dx dy]
                      simp only [subImage]
                      have ex : 0 + (p.1.1 - ox + dx) = p.1.1 - ox + dx := by
                        omega
                      have ey : h_index + (p.1.2 - (oy + h_index) + dy) =
                          p.1.2 - oy + dy := by omega
                      rw [ex, ey]
                  · rw [List.pairwise_append]
                    refine ⟨ihA2, ihB2, ?_⟩
                    intro p hp q hq
                    obtain ⟨hirA, _⟩ := ihA1 p hp
                    obtain ⟨hirB, _⟩ := ihB1 q hq
                    unfold inRegion at hirA hirB
                    simp only [subImage] at hirA hirB
                    unfold rectDisjoint
                    omega
            · -- vertical cut at v_index
              have hb := difference_vertical_bounds img v_index v_max hV
              have hch0 : chooseHorizontal h_max v_max = false :=
                Bool.not_eq_true _ ▸ hch
              rw [guillotineOff_cut_v img ox oy t m h_index v_index h_max v_max
                hgate hH hV hch0 (by rw [if_neg hch] at hcut; exact hcut)] at hl
              cases hA : guillotineOff (subImage img 0 0 v_index img.height)
                  ox oy t m with
              | none => rw [hA] at hl; exact absurd hl (by simp)
              | some a =>
                cases hB : guillotineOff (subImage img v_index 0
                    (img.width - v_index) img.height) (ox + v_index) oy t m with
                | none => rw [hA, hB] at hl; exact absurd hl (by simp)
                | some b =>
                  rw [hA, hB] at hl
                  have hl2 : some (a ++ b) = some l := hl
                  rw [Option.some.injEq] at hl2
                  subst hl2
                  obtain ⟨ihA1, ihA2⟩ := ih (n - 1) (by omega) _
                    (by simp only [subImage]; omega) ox oy t m a hA
                  obtain ⟨ihB1, ihB2⟩ := ih (n - 1) (by omega) _
                    (by simp only [subImage]; omega) (ox + v_index) oy t m b hB
                  constructor
                  · intro p hp
                    rw [List.mem_append] at hp
                    rcases hp with hp | hp
                    · obtain ⟨hirA, hpixA⟩ := ihA1 p hp
                      unfold inRegion at hirA ⊢
                      simp only [subImage] at hirA
                      refine ⟨⟨by omega, by omega, by omega, by omega⟩, ?_⟩
                      intro dx dy
                      rw [hpixA dx dy]
                      simp only [subImage, Nat.zero_add]
                    · obtain ⟨hirB, hpixB⟩ := ihB1 p hp
                      unfold inRegion at hirB ⊢
                      simp only [subImage] at hirB
                      refine ⟨⟨by omega, by omega, by omega, by omega⟩, ?_⟩
                      intro dx dy
                      rw [hpixB dx dy]
                      simp only [subImage]
                      have ex : v_index + (p.1.1 - (ox + v_index) + dx) =
                          p.1.1 - ox + dx := by omega
                      have ey : 0 + (p.1.2 - oy + dy) = p.1.2 - oy + dy := by
                        omega
                      rw [ex, ey]
                  · rw [List.pairwise_append]
                    refine ⟨ihA2, ihB2, ?_⟩
                    intro p hp q hq
                    obtain ⟨hirA, _⟩ := ihA1 p hp
                    obtain ⟨hirB, _⟩ := ihB1 q hq
                    unfold inRegion at hirA hirB
                    simp only [subImage] at hirA hirB
                    unfold rectDisjoint
                    omega
          · rw [guillotineOff_nocut img ox oy t m h_index v_index h_max v_max
                hgate hH hV hcut, Option.some.injEq] at hl
            subst hl
            constructor
            · intro p hp
              rw [List.mem_singleton] at hp
              subst hp
              unfold inRegion
              refine ⟨⟨le_refl ox, le_refl _, le_refl oy, le_refl _⟩, ?_⟩
              intro dx dy
              have ex : ox - ox + dx = dx := by omega
              have ey : oy - oy + dy = dy := by omega
              rw [ex, ey]
            · exact List.pairwise_singleton _ _

/-! ### Counting accepted cuts -/

/-- The number of accepted cuts performed by guillotine: same gate, same
profiler calls, same accept/reject decision, but counting one per split
instead of collecting sub-images. -/
def cutCount (img : Img) (t : ℚ) (m : Nat) : Option Nat :=
  if img.width < m ∨ img.height < m then some 0
  else
    match hh : difference_horizontal img, hv : difference_vertical img with
    | some (h_index, h_max), some (v_index, v_max) =>
      if (if chooseHorizontal h_max v_max then h_max else v_max) > t then
        if chooseHorizontal h_max v_max then
          match cutCount (subImage img 0 0 img.width h_index) t m,
                cutCount (subImage img 0 h_index img.width
                  (img.height - h_index)) t m with
          | some a, some b => some (1 + a + b)
          | _, _ => none
        else
          match cutCount (subImage img 0 0 v_index img.height) t m,
                cutCount (subImage img v_index 0 (img.width - v_index)
                  img.height) t m with
          | some a, some b => some (1 + a + b)
          | _, _ => none
      else some 0
    | _, _ => none
termination_by img.width + img.height
decreasing_by
  · have := difference_horizontal_bounds img h_index h_max hh
    simp only [subImage]
    omega
  · have := difference_horizontal_bounds img h_index h_max hh
    simp only [subImage]
    omega
  · have := difference_vertical_bounds img v_index v_max hv
    simp only [subImage]
    omega
  · have := difference_vertical_bounds img v_index v_max hv
    simp only [subImage]
    omega

theorem cutCount_gate (img : Img) (t : ℚ) (m : Nat)
    (h : img.width < m ∨ img.height < m) :
    cutCount img t m = some 0 := by
  rw [cutCount.eq_def, if_pos h]

theorem cutCount_panic (img : Img) (t : ℚ) (m : Nat)
    (hgate : ¬(img.width < m ∨ img.height < m))
    (h : difference_horizontal img = none ∨ difference_vertical img = none) :
    cutCount img t m = none := by
  rw [cutCount.eq_def, if_neg hgate]
  split
  · rename_i heqh heqv
    rcases h with h | h
    · rw [h] at heqh; exact absurd heqh (by simp)
    · rw [h] at heqv; exact absurd heqv (by simp)
  · rfl

theorem cutCount_nocut (img : Img) (t : ℚ) (m : Nat)
    (hi vi : Nat) (hm vm : ℚ)
    (hgate : ¬(img.width < m ∨ img.height < m))
    (hH : difference_horizontal img = some (hi, hm))
    (hV : difference_vertical img = some (vi, vm))
    (hle : ¬((if chooseHorizontal hm vm then hm else vm) > t)) :
    cutCount img t m = some 0 := by
  rw [cutCount.eq_def, if_neg hgate]
  split
  · rename_i h_index h_max v_index v_max heqh heqv
    rw [hH, Option.some.injEq, Prod.mk.injEq] at heqh
    rw [hV, Option.some.injEq, Prod.mk.injEq] at heqv
    obtain ⟨e1, e2⟩ := heqh
    obtain ⟨e3, e4⟩ := heqv
    subst e1; subst e2; subst e3; subst e4
    rw [if_neg hle]
  · rename_i hne
    exact (hne hi hm vi vm hH hV).elim

theorem cutCount_cut_h (img : Img) (t : ℚ) (m : Nat)
    (hi vi : Nat) (hm vm : ℚ)
    (hgate : ¬(img.width < m ∨ img.height < m))
    (hH : difference_horizontal img = some (hi, hm))
    (hV : difference_vertical img = some (vi, vm))
    (hch : chooseHorizontal hm vm = true)
    (hgt : hm > t) :
    cutCount img t m =
      match cutCount (subImage img 0 0 img.width hi) t m,
            cutCount (subImage img 0 hi img.width (img.height - hi)) t m with
      | some a, some b => some (1 + a + b)
      | _, _ => none := by
  rw [cutCount.eq_def, if_neg hgate]
  split
  · rename_i h_index h_max v_index v_max heqh heqv
    rw [hH, Option.some.injEq, Prod.mk.injEq] at heqh
    rw [hV, Option.some.injEq, Prod.mk.injEq] at heqv
    obtain ⟨e1, e2⟩ := heqh
    obtain ⟨e3, e4⟩ := heqv
    subst e1; subst e2; subst e3; subst e4
    rw [if_pos hch, if_pos hgt, if_pos hch]
  · rename_i hne
    exact (hne hi hm vi vm hH hV).elim

theorem cutCount_cut_v (img : Img) (t : ℚ) (m : Nat)
    (hi vi : Nat) (hm vm : ℚ)
    (hgate : ¬(img.width < m ∨ img.height < m))
    (hH : difference_horizontal img = some (hi, hm))
    (hV : difference_vertical img = some (vi, vm))
    (hch : chooseHorizontal hm vm = false)
    (hgt : vm > t) :
    cutCount img t m =
      match cutCount (subImage img 0 0 vi img.height) t m,
            cutCount (subImage img vi 0 (img.width - vi) img.height) t m with
      | some a, some b => some (1 + a + b)
      | _, _ => none := by
  rw [cutCount.eq_def, if_neg hgate]
  split
  · rename_i h_index h_max v_index v_max heqh heqv
    rw [hH, Option.some.injEq, Prod.mk.injEq] at heqh
    rw [hV, Option.some.injEq, Prod.mk.injEq] at heqv
    obtain ⟨e1, e2⟩ := heqh
    obtain ⟨e3, e4⟩ := heqv
    subst e1; subst e2; subst e3; subst e4
    have hch2 : ¬(chooseHorizontal hm vm = true) := by rw [hch]; simp
    rw [if_neg hch2, if_pos hgt, if_neg hch2]
  · rename_i hne
    exact (hne hi hm vi vm hH hV).elim

/-- cutCount completes exactly when guillotine completes: both run the
same control flow and fail on the same profiler panics. -/
theorem cutCount_isSome_iff (n : Nat) :
    ∀ (img : Img), img.width + img.height ≤ n → ∀ (t : ℚ) (m : Nat),
      (cutCount img t m).isSome = (guillotine img t m).isSome := by
  induction n using Nat.strong_induction_on with
  | _ n ih =>
    intro img hn t m
    by_cases hgate : img.width < m ∨ img.height < m
    · rw [cutCount_gate img t m hgate, guillotine_gate img t m hgate]
      rfl
    · cases hH : difference_horizontal img with
      | none =>
        rw [cutCount_panic img t m hgate (Or.inl hH),
          guillotine_panic img t m hgate (Or.inl hH)]
        rfl
      | some p =>
        obtain ⟨h_index, h_max⟩ := p
        cases hV : difference_vertical img with
        | none =>
          rw [cutCount_panic img t m hgate (Or.inr hV),
            guillotine_panic img t m hgate (Or.inr hV)]
          rfl
        | some q =>
          obtain ⟨v_index, v_max⟩ := q
          by_cases hcut :
              (if chooseHorizontal h_max v_max then h_max else v_max) > t
          · by_cases hch : chooseHorizontal h_max v_max
            · have hb := difference_horizontal_bounds img h_index h_max hH
              rw [cutCount_cut_h img t m h_index v_index h_max v_max
                  hgate hH hV hch (by rw [if_pos hch] at hcut; exact hcut),
                guillotine_cut_h img t m h_index v_index h_max v_max
                  hgate hH hV hch (by rw [if_pos hch] at hcut; exact hcut)]
              have eA := ih (n - 1) (by omega)
                (subImage img 0 0 img.width h_index)
                (by simp only [subImage]; omega) t m
              have eB := ih (n - 1) (by omega)
                (subImage img 0 h_index img.width (img.height - h_index))
                (by simp only [subImage]; omega) t m
              cases hA : cutCount (subImage img 0 0 img.width h_index) t m <;>
                cases hB : cutCount (subImage img 0 h_index img.width
                  (img.height - h_index)) t m <;>
                rw [hA] at eA <;> rw [hB] at eB <;>
                cases hA2 : guillotine (subImage img 0 0 img.width h_index)
                  t m <;>
                cases hB2 : guillotine (subImage img 0 h_index img.width
                  (img.height - h_index)) t m <;>
                rw [hA2] at eA <;> rw [hB2] at eB <;>
                simp_all
            · have hb := difference_vertical_bounds img v_index v_max hV
              have hch0 : chooseHorizontal h_max v_max = false :=
                Bool.not_eq_true _ ▸ hch
              rw [cutCount_cut_v img t m h_index v_index h_max v_max
                  hgate hH hV hch0 (by rw [if_neg hch] at hcut; exact hcut),
                guillotine_cut_v img t m h_index v_index h_max v_max
                  hgate hH hV hch0 (by rw [if_neg hch] at hcut; exact hcut)]
              have eA := ih (n - 1) (by omega)
                (subImage img 0 0 v_index img.height)
                (by simp only [subImage]; omega) t m
              have eB := ih (n - 1) (by omega)
                (subImage img v_index 0 (img.width - v_index) img.height)
                (by simp only [subImage]; omega) t m
              cases hA : cutCount (subImage img 0 0 v_index img.height) t m <;>
                cases hB : cutCount (subImage img v_index 0
                  (img.width - v_index) img.height) t m <;>
                rw [hA] at eA <;> rw [hB] at eB <;>
                cases hA2 : guillotine (subImage img 0 0 v_index img.height)
                  t m <;>
                cases hB2 : guillotine (subImage img v_index 0
                  (img.width - v_index) img.height) t m <;>
                rw [hA2] at eA <;> rw [hB2] at eB <;>
                simp_all
          · rw [cutCount_nocut img t m h_index v_index h_max v_max
                hgate hH hV hcut,
              guillotine_nocut img t m h_index v_index h_max v_max
                hgate hH hV hcut]
            rfl

/-- Raising the threshold never increases the number of accepted cuts:
above the bigger threshold the algorithm only stops earlier. -/
theorem cutCount_antitone (n : Nat) :
    ∀ (img : Img), img.width + img.height ≤ n →
    ∀ (t1 t2 : ℚ) (m : Nat) (c1 c2 : Nat), t1 ≤ t2 →
      cutCount img t1 m = some c1 → cutCount img t2 m = some c2 →
      c2 ≤ c1 := by
  induction n using Nat.strong_induction_on with
  | _ n ih =>
    intro img hn t1 t2 m c1 c2 ht h1 h2
    by_cases hgate : img.width < m ∨ img.height < m
    · rw [cutCount_gate img t2 m hgate, Option.some.injEq] at h2
      omega
    · cases hH : difference_horizontal img with
      | none =>
        rw [cutCount_panic img t1 m hgate (Or.inl hH)] at h1
        exact absurd h1 (by simp)
      | some p =>
        obtain ⟨h_index, h_max⟩ := p
        cases hV : difference_vertical img with
        | none =>
          rw [cutCount_panic img t1 m hgate (Or.inr hV)] at h1
          exact absurd h1 (by simp)
        | some q =>
          obtain ⟨v_index, v_max⟩ := q
          by_cases hcut2 :
              (if chooseHorizontal h_max v_max then h_max else v_max) > t2
          · have hcut1 :
                (if chooseHorizontal h_max v_max then h_max else v_max) > t1 :=
              lt_of_le_of_lt ht hcut2
            by_cases hch : chooseHorizontal h_max v_max
            · have hb := difference_horizontal_bounds img h_index h_max hH
              rw [cutCount_cut_h img t1 m h_index v_index h_max v_max
                hgate hH hV hch (by rw [if_pos hch] at hcut1; exact hcut1)] at h1
              rw [cutCount_cut_h img t2 m h_index v_index h_max v_max
                hgate hH hV hch (by rw [if_pos hch] at hcut2; exact hcut2)] at h2
              cases hA1 : cutCount (subImage img 0 0 img.width h_index) t1 m with
              | none => rw [hA1] at h1; exact absurd h1 (by simp)
              | some a1 =>
                cases hB1 : cutCount (subImage img 0 h_index img.width
                    (img.height - h_index)) t1 m with
                | none => rw [hA1, hB1] at h1; exact absurd h1 (by simp)
                | some b1 =>
                  cases hA2 : cutCount (subImage img 0 0 img.width h_index)
                      t2 m with
                  | none => rw [hA2] at h2; exact absurd h2 (by simp)
                  | some a2 =>
                    cases hB2 : cutCount (subImage img 0 h_index img.width
                        (img.height - h_index)) t2 m with
                    | none => rw [hA2, hB2] at h2; exact absurd h2 (by simp)
                    | some b2 =>
                      rw [hA1, hB1, Option.some.injEq] at h1
                      rw [hA2, hB2, Option.some.injEq] at h2
                      have ea := ih (n - 1) (by omega) _
                        (by simp only [subImage]; omega) t1 t2 m a1 a2 ht hA1 hA2
                      have eb := ih (n - 1) (by omega) _
                        (by simp only [subImage]; omega) t1 t2 m b1 b2 ht hB1 hB2
                      omega
            · have hb := difference_vertical_bounds img v_index v_max hV
              have hch0 : chooseHorizontal h_max v_max = false :=
                Bool.not_eq_true _ ▸ hch
              rw [cutCount_cut_v img t1 m h_index v_index h_max v_max
                hgate hH hV hch0 (by rw [if_neg hch] at hcut1; exact hcut1)] at h1
              rw [cutCount_cut_v img t2 m h_index v_index h_max v_max
                hgate hH hV hch0 (by rw [if_neg hch] at hcut2; exact hcut2)] at h2
              cases hA1 : cutCount (subImage img 0 0 v_index img.height) t1 m with
              | none => rw [hA1] at h1; exact absurd h1 (by simp)
              | some a1 =>
                cases hB1 : cutCount (subImage img v_index 0
                    (img.width - v_index) img.height) t1 m with
                | none => rw [hA1, hB1] at h1; exact absurd h1 (by simp)
                | some b1 =>
                  cases hA2 : cutCount (subImage img 0 0 v_index img.height)
                      t2 m with
                  | none => rw [hA2] at h2; exact absurd h2 (by simp)
                  | some a2 =>
                    cases hB2 : cutCount (subImage img v_index 0
                        (img.width - v_index) img.height) t2 m with
                    | none => rw [hA2, hB2] at h2; exact absurd h2 (by simp)
                    | some b2 =>
                      rw [hA1, hB1, Option.some.injEq] at h1
                      rw [hA2, hB2, Option.some.injEq] at h2
                      have ea := ih (n - 1) (by omega) _
                        (by simp only [subImage]; omega) t1 t2 m a1 a2 ht hA1 hA2
                      have eb := ih (n - 1) (by omega) _
                        (by simp only [subImage]; omega) t1 t2 m b1 b2 ht hB1 hB2
                      omega
          · rw [cutCount_nocut img t2 m h_index v_index h_max v_max
              hgate hH hV hcut2, Option.some.injEq] at h2
            omega

/-! ### Emitted sub-images pass the gate -/

/-- Every sub-image in the output was emitted by the call that owned it
after that call's gate check passed, so it is at least min_size wide and
tall. -/
theorem guillotine_minsize (n : Nat) :
    ∀ (img : Img), img.width + img.height ≤ n →
    ∀ (t : ℚ) (m : Nat) (l : List Img), guillotine img t m = some l →
      ∀ o ∈ l, m ≤ o.width ∧ m ≤ o.height := by
  induction n using Nat.strong_induction_on with
  | _ n ih =>
    intro img hn t m l hl o ho
    by_cases hgate : img.width < m ∨ img.height < m
    · rw [guillotine_gate img t m hgate, Option.some.injEq] at hl
      subst hl
      exact absurd ho (by simp)
    · cases hH : difference_horizontal img with
      | none =>
        rw [guillotine_panic img t m hgate (Or.inl hH)] at hl
        exact absurd hl (by simp)
      | some p =>
        obtain ⟨h_index, h_max⟩ := p
        cases hV : difference_vertical img with
        | none =>
          rw [guillotine_panic img t m hgate (Or.inr hV)] at hl
          exact absurd hl (by simp)
        | some q =>
          obtain ⟨v_index, v_max⟩ := q
          by_cases hcut :
              (if chooseHorizontal h_max v_max then h_max else v_max) > t
          · by_cases hch : chooseHorizontal h_max v_max
            · have hb := difference_horizontal_bounds img h_index h_max hH
              rw [guillotine_cut_h img t m h_index v_index h_max v_max
                hgate hH hV hch (by rw [if_pos hch] at hcut; exact hcut)] at hl
              cases hA : guillotine (subImage img 0 0 img.width h_index)
                  t m with
              | none => rw [hA] at hl; exact absurd hl (by simp)
              | some a =>
                cases hB : guillotine (subImage img 0 h_index img.width
                    (img.height - h_index)) t m with
                | none => rw [hA, hB] at hl; exact absurd hl (by simp)
                | some b =>
                  rw [hA, hB] at hl
                  have hl2 : some (a ++ b) = some l := hl
                  rw [Option.some.injEq] at hl2
                  subst hl2
                  rw [List.mem_append] at ho
                  rcases ho with ho | ho
                  · exact ih (n - 1) (by omega) _
                      (by simp only [subImage]; omega) t m a hA o ho
                  · exact ih (n - 1) (by omega) _
                      (by simp only [subImage]; omega) t m b hB o ho
            · have hb := difference_vertical_bounds img v_index v_max hV
              have hch0 : chooseHorizontal h_max v_max = false :=
                Bool.not_eq_true _ ▸ hch
              rw [guillotine_cut_v img t m h_index v_index h_max v_max
                hgate hH hV hch0 (by rw [if_neg hch] at hcut; exact hcut)] at hl
              cases hA : guillotine (subImage img 0 0 v_index img.height)
                  t m with
              | none => rw [hA] at hl; exact absurd hl (by simp)
              | some a =>
                cases hB : guillotine (subImage img v_index 0
                    (img.width - v_index) img.height) t m with
                | none => rw [hA, hB] at hl; exact absurd hl (by simp)
                | some b =>
                  rw [hA, hB] at hl
                  have hl2 : some (a ++ b) = some l := hl
                  rw [Option.some.injEq] at hl2
                  subst hl2
                  rw [List.mem_append] at ho
                  rcases ho with ho | ho
                  · exact ih (n - 1) (by omega) _
                      (by simp only [subImage]; omega) t m a hA o ho
                  · exact ih (n - 1) (by omega) _
                      (by simp only [subImage]; omega) t m b hB o ho
          · rw [guillotine_nocut img t m h_index v_index h_max v_max
              hgate hH hV hcut, Option.some.injEq] at hl
            subst hl
            rw [List.mem_singleton] at ho
            subst ho
            omega

/-! ### Small concrete images and their evaluations -/

/-- A 1 x 1 image: both axes have a single line, so both profilers fail. -/
def unitImg : Img := ⟨1, 1, fun _ _ => white⟩

/-- A 2 x 2 checkerboard: the two axes have exactly equal best scores. -/
def checker : Img :=
  ⟨2, 2, fun x y => if (x + y) % 2 = 0 then blackPx else white⟩

/-- A 2 x 2 uniform white image. -/
def uni2 : Img := ⟨2, 2, fun _ _ => white⟩

/-- A degenerate image with two rows of width zero. -/
def emptyRows : Img := ⟨0, 2, fun _ _ => white⟩

theorem diffH_checker : difference_horizontal checker = some (1, 255) := by
  decide

theorem diffV_checker : difference_vertical checker = some (1, 255) := by
  decide

theorem guillotine_checker_30 : guillotine checker 30 2 = some [] := by
  rw [guillotine_cut_v checker 30 2 1 1 255 255 (by decide)
    diffH_checker diffV_checker (by decide) (by norm_num)]
  rw [guillotine_gate _ 30 2 (Or.inl (by decide)),
    guillotine_gate _ 30 2 (Or.inl (by decide))]
  rfl

theorem guillotine_checker_1000 : guillotine checker 1000 2 = some [checker] :=
  guillotine_nocut checker 1000 2 1 1 255 255 (by decide)
    diffH_checker diffV_checker (by decide)

theorem guillotineOff_checker_30 : guillotineOff checker 0 0 30 2 = some [] := by
  rw [guillotineOff_cut_v checker 0 0 30 2 1 1 255 255 (by decide)
    diffH_checker diffV_checker (by decide) (by norm_num)]
  rw [guillotineOff_gate _ 0 0 30 2 (Or.inl (by decide)),
    guillotineOff_gate _ (0 + 1) 0 30 2 (Or.inl (by decide))]
  rfl

theorem cutCount_checker_30 : cutCount checker 30 2 = some 1 := by
  rw [cutCount_cut_v checker 30 2 1 1 255 255 (by decide)
    diffH_checker diffV_checker (by decide) (by norm_num)]
  rw [cutCount_gate _ 30 2 (Or.inl (by decide)),
    cutCount_gate _ 30 2 (Or.inl (by decide))]

theorem cutCount_checker_1000 : cutCount checker 1000 2 = some 0 :=
  cutCount_nocut checker 1000 2 1 1 255 255 (by decide)
    diffH_checker diffV_checker (by decide)

theorem guillotine_uni2 : guillotine uni2 30 2 = some [uni2] :=
  guillotine_const_image uni2 30 2 (by decide) (by decide) (by decide)
    (by decide) (by norm_num) (fun _ _ _ _ => rfl)

theorem guillotine_unitImg : guillotine unitImg 30 1 = none :=
  guillotine_panic unitImg 30 1 (by decide) (Or.inl (by decide))

/-- An axis with a single line yields an empty score list. -/
theorem hValues_nil_of_height_lt_two (img : Img) (h : img.height < 2) :
    hValues img = [] := by
  unfold hValues
  split
  · rfl
  · have h0 : img.height - 1 = 0 := by omega
    rw [h0]
    rfl

theorem vValues_nil_of_width_lt_two (img : Img) (h : img.width < 2) :
    vValues img = [] := by
  unfold vValues
  split
  · rfl
  · have h0 : img.width - 1 = 0 := by omega
    rw [h0]
    rfl

/-- Modelled from the spec's words: the dissimilarity score of a line pair
is the sum over every pixel position and every color channel of the
absolute difference, divided by (line length x channel count). -/
def specLineScore (old new : Line) : ℚ :=
  (lineAbsSum old new : ℚ) / ((List.length old : ℚ) * 3)

theorem average_difference_eq_spec (old new : Line) :
    average_difference old new = specLineScore old new := by
  rw [average_difference_eq_div, specLineScore, div_div]

/-! ### The claims -/

/-- A tagged sub-image covers the pixel at original coordinates
(px, py). -/
def covers (p : (Nat × Nat) × Img) (px py : Nat) : Prop :=
  p.1.1 ≤ px ∧ px < p.1.1 + p.2.width ∧
    p.1.2 ≤ py ∧ py < p.1.2 + p.2.height

/-- C1 counterexample: the 2 x 2 checkerboard with min_size 2 and
threshold 30 is accepted by the gate, yet guillotine emits no sub-images
at all, so pixel (0, 0) is covered by no sub-image: the partition is not
exact. -/
theorem claim1_counterexample :
    (2 ≤ checker.width ∧ 2 ≤ checker.height ∧ 0 < checker.width ∧
      0 < checker.height) ∧
    guillotine checker 30 2 = some [] ∧
    guillotineOff checker 0 0 30 2 = some [] ∧
    ∀ l, guillotineOff checker 0 0 30 2 = some l → ¬∃ p ∈ l, covers p 0 0 := by
  refine ⟨by decide, guillotine_checker_30, guillotineOff_checker_30, ?_⟩
  intro l hl
  rw [guillotineOff_checker_30, Option.some.injEq] at hl
  subst hl
  simp

/-- C1 (amended): whenever guillotine returns sub-images, mapping them
back through the cut offsets recorded by guillotineOff covers every pixel
of the source at most once: every covered pixel is in bounds and keeps
its original color, and no pixel lies in two sub-images.  The original
exactly-once statement is false: the min-size gate can discard whole
regions, dropping their pixels. -/
theorem claim1_partition_at_most_once (img : Img) (t : ℚ) (m : Nat)
    (gs : List Img) (hg : guillotine img t m = some gs) :
    ∃ l, guillotineOff img 0 0 t m = some l ∧ gs = l.map Prod.snd ∧
      (∀ p ∈ l, ∀ px py, covers p px py →
        px < img.width ∧ py < img.height ∧
          p.2.pix (px - p.1.1) (py - p.1.2) = img.pix px py) ∧
      l.Pairwise (fun p q => ∀ px py, ¬(covers p px py ∧ covers q px py)) := by
  have hproj := guillotineOff_proj (img.width + img.height) img le_rfl 0 0 t m
  cases hOff : guillotineOff img 0 0 t m with
  | none =>
    rw [hOff] at hproj
    rw [← hproj] at hg
    exact absurd hg (by simp)
  | some l =>
    rw [hOff] at hproj
    rw [hg] at hproj
    simp only [Option.map_some', Option.some.injEq] at hproj
    obtain ⟨hmem, hpair⟩ :=
      guillotineOff_sound (img.width + img.height) img le_rfl 0 0 t m l hOff
    refine ⟨l, rfl, hproj.symm, ?_, ?_⟩
    · intro p hp px py hcov
      obtain ⟨hir, hpix⟩ := hmem p hp
      unfold inRegion at hir
      unfold covers at hcov
      refine ⟨by omega, by omega, ?_⟩
      rw [hpix (px - p.1.1) (py - p.1.2)]
      have ex : p.1.1 - 0 + (px - p.1.1) = px := by omega
      have ey : p.1.2 - 0 + (py - p.1.2) = py := by omega
      rw [ex, ey]
    · refine hpair.imp ?_
      intro p q hd px py hcon
      obtain ⟨h1, h2⟩ := hcon
      unfold rectDisjoint at hd
      unfold covers at h1 h2
      omega

theorem claim1_witness :
    guillotine uni2 30 2 = some [uni2] ∧
    ∃ l, guillotineOff uni2 0 0 30 2 = some l ∧ [uni2] = l.map Prod.snd ∧
      (∀ p ∈ l, ∀ px py, covers p px py →
        px < uni2.width ∧ py < uni2.height ∧
          p.2.pix (px - p.1.1) (py - p.1.2) = uni2.pix px py) ∧
      l.Pairwise (fun p q => ∀ px py, ¬(covers p px py ∧ covers q px py)) :=
  ⟨guillotine_uni2, claim1_partition_at_most_once uni2 30 2 [uni2] guillotine_uni2⟩

/-- C2 counterexample: on the spec's 200 x 100 example image guillotine
with threshold 30 and min_size 100 returns one sub-image, not two. -/
theorem claim2_counterexample :
    (guillotine lineImage 30 100).map List.length = some 1 ∧
    (guillotine lineImage 30 100).map List.length ≠ some 2 := by
  rw [guillotine_lineImage]
  exact ⟨rfl, by simp⟩

/-- C2 (amended): on the 200 x 100 image with a fully-contrasting
vertical line at column 100, guillotine with threshold 30 and min_size
100 returns exactly one 100 x 100 sub-image, the left region (original
columns 0 through 99).  The right region is cut again at the contrasting
line into a 1-wide and a 99-wide sliver, both below min_size, and the
gate discards them. -/
theorem claim2_single_output :
    guillotine lineImage 30 100 =
      some [subImage lineImage 0 0 100 lineImage.height] ∧
    (subImage lineImage 0 0 100 lineImage.height).width = 100 ∧
    (subImage lineImage 0 0 100 lineImage.height).height = 100 ∧
    ∀ x y, (subImage lineImage 0 0 100 lineImage.height).pix x y =
      lineImage.pix x y := by
  refine ⟨guillotine_lineImage, rfl, rfl, ?_⟩
  intro x y
  show lineImage.pix (0 + x) (0 + y) = lineImage.pix x y
  rw [Nat.zero_add, Nat.zero_add]

/-- C3 counterexample: on the 2 x 2 checkerboard both axes score exactly
255, and the axis decision of line 102 picks vertical, not horizontal. -/
theorem claim3_counterexample :
    difference_horizontal checker = some (1, 255) ∧
    difference_vertical checker = some (1, 255) ∧
    chooseHorizontal 255 255 = false :=
  ⟨diffH_checker, diffV_checker, by decide⟩

/-- C3 (amended): when the best horizontal score exactly equals the best
vertical score the Partitioner chooses the vertical axis; horizontal wins
only when its score is strictly greater than the vertical score. -/
theorem claim3_tie_vertical :
    (∀ (img : Img) (i j : Nat) (s : ℚ),
      difference_horizontal img = some (i, s) →
      difference_vertical img = some (j, s) →
      chooseHorizontal s s = false) ∧
    ∀ hm vm : ℚ, chooseHorizontal hm vm = true ↔ vm < hm := by
  constructor
  · intro img i j s _ _
    unfold chooseHorizontal
    simp
  · intro hm vm
    unfold chooseHorizontal
    simp

theorem claim3_witness :
    (difference_horizontal checker = some (1, 255) ∧
      difference_vertical checker = some (1, 255)) ∧
    chooseHorizontal 255 255 = false :=
  ⟨⟨diffH_checker, diffV_checker⟩,
    claim3_tie_vertical.1 checker 1 1 255 diffH_checker diffV_checker⟩

/-- C4 counterexample: on the 2 x 2 checkerboard with min_size 2,
raising the threshold from 30 to 1000 increases the output count from 0
to 1, because at threshold 30 the accepted cut produces two sub-minimum
slivers that the gate discards. -/
theorem claim4_counterexample :
    (30 : ℚ) ≤ 1000 ∧
    (guillotine checker 30 2).map List.length = some 0 ∧
    (guillotine checker 1000 2).map List.length = some 1 := by
  refine ⟨by norm_num, ?_, ?_⟩
  · rw [guillotine_checker_30]
    rfl
  · rw [guillotine_checker_1000]
    rfl

/-- C4 (amended): what is antitone in the threshold is the number of
accepted cuts, not the number of output sub-images: for thresholds
t1 at most t2, whenever both runs complete, the run at t2 performs at
most as many cuts as the run at t1. -/
theorem claim4_cut_count_antitone (img : Img) (t1 t2 : ℚ) (m : Nat)
    (c1 c2 : Nat) (ht : t1 ≤ t2) (h1 : cutCount img t1 m = some c1)
    (h2 : cutCount img t2 m = some c2) : c2 ≤ c1 :=
  cutCount_antitone (img.width + img.height) img le_rfl t1 t2 m c1 c2 ht h1 h2

theorem claim4_witness :
    ((30 : ℚ) ≤ 1000 ∧ cutCount checker 30 2 = some 1 ∧
      cutCount checker 1000 2 = some 0) ∧ 0 ≤ 1 :=
  ⟨⟨by norm_num, cutCount_checker_30, cutCount_checker_1000⟩,
    claim4_cut_count_antitone checker 30 1000 2 1 0 (by norm_num)
      cutCount_checker_30 cutCount_checker_1000⟩

/-- C5 counterexample: an image with two rows of width zero has at least
2 lines along the scanned axis, but the source's scan never pushes a
score for empty lines, so the profiler fails instead of returning a
pair. -/
theorem claim5_counterexample :
    2 ≤ emptyRows.height ∧ difference_horizontal emptyRows = none ∧
    ∀ i s, difference_horizontal emptyRows ≠ some (1 + i, s) := by
  refine ⟨by decide, by decide, ?_⟩
  intro i s h
  rw [show difference_horizontal emptyRows = none from by decide] at h
  exact absurd h (by simp)

/-- C5 (amended): for every image with at least 2 lines along the
scanned axis, each line nonempty, the profiler returns (1 + i, s) where
s is the maximum of the adjacent-line scores, i is the smallest index
attaining it, and each score is the summed absolute channel difference
divided by (line length x 3). -/
theorem claim5_profiler_first_max (img : Img) :
    (1 ≤ img.width → 2 ≤ img.height →
      ∃ i s, difference_horizontal img = some (1 + i, s) ∧
        i < (hValues img).length ∧ (hValues img).getD i 0 = s ∧
        (∀ j, j < (hValues img).length → (hValues img).getD j 0 ≤ s) ∧
        (∀ j, j < i → (hValues img).getD j 0 < s) ∧
        (hValues img).length = img.height - 1 ∧
        (∀ j, j < img.height - 1 → (hValues img).getD j 0 =
          specLineScore (row img j) (row img (j + 1)))) ∧
    (1 ≤ img.height → 2 ≤ img.width →
      ∃ i s, difference_vertical img = some (1 + i, s) ∧
        i < (vValues img).length ∧ (vValues img).getD i 0 = s ∧
        (∀ j, j < (vValues img).length → (vValues img).getD j 0 ≤ s) ∧
        (∀ j, j < i → (vValues img).getD j 0 < s) ∧
        (vValues img).length = img.width - 1 ∧
        (∀ j, j < img.width - 1 → (vValues img).getD j 0 =
          specLineScore (colLine img j) (colLine img (j + 1)))) := by
  constructor
  · intro hw hh
    have hlen : (hValues img).length = img.height - 1 := by
      rw [hValues_length, if_neg (by omega)]
    have hne : hValues img ≠ [] := by
      intro hcon
      rw [hcon] at hlen
      simp at hlen
      omega
    obtain ⟨⟨i, s⟩, hp⟩ := firstMax_isSome_of_ne_nil _ hne
    obtain ⟨h1, h2, h3, h4⟩ := firstMax_spec _ _ _ hp
    refine ⟨i, s, ?_, h1, h2, h3, h4, hlen, ?_⟩
    · unfold difference_horizontal
      rw [hp, Option.map_some']
      rw [Nat.add_comm i 1]
    · intro j hj
      unfold hValues
      rw [if_neg (by omega), getD_range_map _ _ _ _ (by omega),
        average_difference_eq_spec]
  · intro hh hw
    have hlen : (vValues img).length = img.width - 1 := by
      rw [vValues_length, if_neg (by omega)]
    have hne : vValues img ≠ [] := by
      intro hcon
      rw [hcon] at hlen
      simp at hlen
      omega
    obtain ⟨⟨i, s⟩, hp⟩ := firstMax_isSome_of_ne_nil _ hne
    obtain ⟨h1, h2, h3, h4⟩ := firstMax_spec _ _ _ hp
    refine ⟨i, s, ?_, h1, h2, h3, h4, hlen, ?_⟩
    · unfold difference_vertical
      rw [hp, Option.map_some']
      rw [Nat.add_comm i 1]
    · intro j hj
      unfold vValues
      rw [if_neg (by omega), getD_range_map _ _ _ _ (by omega),
        average_difference_eq_spec]

theorem claim5_witness :
    (1 ≤ checker.width ∧ 2 ≤ checker.height) ∧
    ∃ i s, difference_horizontal checker = some (1 + i, s) ∧
      i < (hValues checker).length ∧ (hValues checker).getD i 0 = s ∧
      (∀ j, j < (hValues checker).length → (hValues checker).getD j 0 ≤ s) ∧
      (∀ j, j < i → (hValues checker).getD j 0 < s) ∧
      (hValues checker).length = checker.height - 1 ∧
      (∀ j, j < checker.height - 1 → (hValues checker).getD j 0 =
        specLineScore (row checker j) (row checker (j + 1))) :=
  ⟨⟨by decide, by decide⟩,
    (claim5_profiler_first_max checker).1 (by decide) (by decide)⟩

/-- C6 counterexample: with min_size 1 the gate accepts a 1 x 1 image,
yet both profilers see an empty score list and fail: the unwrap branch is
reachable after the gate passes. -/
theorem claim6_counterexample :
    ¬(unitImg.width < 1 ∨ unitImg.height < 1) ∧
    hValues unitImg = [] ∧ vValues unitImg = [] ∧
    difference_horizontal unitImg = none ∧
    difference_vertical unitImg = none :=
  ⟨by decide, by decide, by decide, by decide, by decide⟩

/-- C6 (amended): when min_size is at least 2, passing the gate
guarantees both score lists are non-empty and both profiler calls return
a value, so the unwrap branch is unreachable. -/
theorem claim6_gate_nonempty (img : Img) (m : Nat) (hm : 2 ≤ m)
    (hw : m ≤ img.width) (hh : m ≤ img.height) :
    hValues img ≠ [] ∧ vValues img ≠ [] ∧
    (∃ p, difference_horizontal img = some p) ∧
    ∃ p, difference_vertical img = some p := by
  have hlh : (hValues img).length = img.height - 1 := by
    rw [hValues_length, if_neg (by omega)]
  have hlv : (vValues img).length = img.width - 1 := by
    rw [vValues_length, if_neg (by omega)]
  have hne1 : hValues img ≠ [] := by
    intro hcon
    rw [hcon] at hlh
    simp at hlh
    omega
  have hne2 : vValues img ≠ [] := by
    intro hcon
    rw [hcon] at hlv
    simp at hlv
    omega
  obtain ⟨p, hp⟩ := firstMax_isSome_of_ne_nil _ hne1
  obtain ⟨q, hq⟩ := firstMax_isSome_of_ne_nil _ hne2
  refine ⟨hne1, hne2, ⟨(p.1 + 1, p.2), ?_⟩, ⟨(q.1 + 1, q.2), ?_⟩⟩
  · unfold difference_horizontal
    rw [hp]
    rfl
  · unfold difference_vertical
    rw [hq]
    rfl

theorem claim6_witness :
    (2 ≤ 2 ∧ 2 ≤ uni2.width ∧ 2 ≤ uni2.height) ∧
    (hValues uni2 ≠ [] ∧ vValues uni2 ≠ [] ∧
      (∃ p, difference_horizontal uni2 = some p) ∧
      ∃ p, difference_vertical uni2 = some p) :=
  ⟨⟨le_refl 2, by decide, by decide⟩,
    claim6_gate_nonempty uni2 2 (le_refl 2) (by decide) (by decide)⟩

/-- C7: on an axis with fewer than 2 lines there are no adjacent pairs,
and the profiler fails (none, the unwrap panic surfaced to the caller)
instead of returning a zero or default score. -/
theorem claim7_profiler_fails (imgA imgB : Img) (hA : imgA.height < 2)
    (hB : imgB.width < 2) :
    difference_horizontal imgA = none ∧ difference_vertical imgB = none := by
  constructor
  · unfold difference_horizontal
    rw [hValues_nil_of_height_lt_two imgA hA]
    rfl
  · unfold difference_vertical
    rw [vValues_nil_of_width_lt_two imgB hB]
    rfl

theorem claim7_witness :
    (unitImg.height < 2 ∧ unitImg.width < 2) ∧
    difference_horizontal unitImg = none ∧
    difference_vertical unitImg = none :=
  ⟨⟨by decide, by decide⟩,
    claim7_profiler_fails unitImg unitImg (by decide) (by decide)⟩

/-- C8 counterexample: a 1 x 1 image is uniform (both score lists are
empty, so every adjacent-line score is vacuously zero) and both
dimensions reach min_size 1, yet guillotine panics in the profiler and
returns no output at all instead of the image itself. -/
theorem claim8_counterexample :
    (∀ x y, unitImg.pix x y = unitImg.pix 0 0) ∧
    (∀ s ∈ hValues unitImg, s = 0) ∧ (∀ s ∈ vValues unitImg, s = 0) ∧
    1 ≤ unitImg.width ∧ 1 ≤ unitImg.height ∧
    guillotine unitImg 30 1 = none :=
  ⟨fun _ _ => rfl, by decide, by decide, by decide, by decide,
    guillotine_unitImg⟩

/-- C8 (amended): a color-uniform image whose dimensions are at least 2
and at least min_size, under a nonnegative threshold, is returned whole:
exactly one output image, identical to the input.  Dimensions of at
least 2 are needed because a 1-line axis makes the profiler panic, and a
negative threshold would accept a zero-score cut. -/
theorem claim8_uniform_identity (img : Img) (t : ℚ) (m : Nat)
    (hc : ∀ x y, x < img.width → y < img.height → img.pix x y = img.pix 0 0)
    (hw : 2 ≤ img.width) (hh : 2 ≤ img.height)
    (hmw : m ≤ img.width) (hmh : m ≤ img.height) (ht : 0 ≤ t) :
    guillotine img t m = some [img] :=
  guillotine_const_image img t m hw hh hmw hmh ht hc

theorem claim8_witness :
    ((∀ x y, x < uni2.width → y < uni2.height → uni2.pix x y = uni2.pix 0 0) ∧
      2 ≤ uni2.width ∧ 2 ≤ uni2.height ∧ (0 : ℚ) ≤ 30) ∧
    guillotine uni2 30 2 = some [uni2] :=
  ⟨⟨fun _ _ _ _ => rfl, by decide, by decide, by norm_num⟩,
    claim8_uniform_identity uni2 30 2 (fun _ _ _ _ => rfl) (by decide)
      (by decide) (by decide) (by decide) (by norm_num)⟩

/-- C9: guillotine terminates on every input.  Each accepted cut position
is interior (at least 1 and strictly less than the dimension it splits),
so both children are strictly smaller, and running the algorithm with any
explicit recursion budget larger than width + height gives the same
result as the well-founded recursion. -/
theorem claim9_termination :
    (∀ (img : Img) (i : Nat) (s : ℚ),
      difference_horizontal img = some (i, s) → 1 ≤ i ∧ i < img.height) ∧
    (∀ (img : Img) (i : Nat) (s : ℚ),
      difference_vertical img = some (i, s) → 1 ≤ i ∧ i < img.width) ∧
    ∀ (fuel : Nat) (img : Img) (t : ℚ) (m : Nat),
      img.width + img.height < fuel →
      guillotineFuel fuel img t m = guillotine img t m := by
  refine ⟨?_, ?_, ?_⟩
  · intro img i s h
    have hb := difference_horizontal_bounds img i s h
    exact ⟨hb.1, hb.2.1⟩
  · intro img i s h
    have hb := difference_vertical_bounds img i s h
    exact ⟨hb.1, hb.2.1⟩
  · intro fuel img t m h
    exact guillotineFuel_eq fuel img t m h

theorem claim9_witness :
    (difference_horizontal checker = some (1, 255) ∧
      1 ≤ 1 ∧ 1 < checker.height) ∧
    checker.width + checker.height < 5 ∧
    guillotineFuel 5 checker 30 2 = guillotine checker 30 2 :=
  ⟨⟨diffH_checker,
      (claim9_termination.1 checker 1 255 diffH_checker).1,
      (claim9_termination.1 checker 1 255 diffH_checker).2⟩,
    by decide, claim9_termination.2.2 5 checker 30 2 (by decide)⟩

/-- C10: every image in the output of guillotine is at least min_size
wide and at least min_size tall: images are only emitted by a call whose
gate check passed. -/
theorem claim10_minsize (img : Img) (t : ℚ) (m : Nat) (l : List Img)
    (hl : guillotine img t m = some l) :
    ∀ o ∈ l, m ≤ o.width ∧ m ≤ o.height :=
  guillotine_minsize (img.width + img.height) img le_rfl t m l hl

theorem claim10_witness :
    guillotine uni2 30 2 = some [uni2] ∧ 2 ≤ uni2.width ∧ 2 ≤ uni2.height :=
  ⟨guillotine_uni2,
    claim10_minsize uni2 30 2 [uni2] guillotine_uni2 uni2 (by simp)⟩
